import Mathlib

/-
Shallow embedding of the relevance-scoring core of
src/scripts/ConceptManager.js (the current version of the class, whose
getRelatedConcepts accepts matchCriteria / includePath / strictPath /
minScore / maxResults / scoreMultiplier), together with the helper
getFilesInSamePath it calls.

Modelling choices:
* JavaScript strings are modelled as lists of characters (Str), so that
  split('/'), join('/'), startsWith and equality are all executable by the
  kernel.
* JavaScript numbers are modelled as rationals.
* A document ("page") is its file path plus a finite map from frontmatter
  field names to values; a value is a scalar or a list of scalars, and
  property access returns an optional value (undefined when absent).
* The JavaScript Map (insertion-ordered, set-replaces-in-place) is modelled
  as an association list with the same set semantics.
* Array.prototype.sort with comparator (a, b) => b.confidence - a.confidence
  is a stable sort; for a total preorder comparator the stable order is
  unique, so it is modelled by a stable insertion sort.
-/

abbrev Str : Type := List Char

/-- A frontmatter value: a single scalar or an ordered list of scalars. -/
inductive FieldValue where
  | scalar (s : Str)
  | list (l : List Str)
deriving DecidableEq

/-- JS: Array.isArray(v) ? v : [v]. -/
def FieldValue.toList : FieldValue → List Str
  | .scalar s => [s]
  | .list l => l

/-- JS truthiness of an optional frontmatter value: undefined and the empty
string are falsy; every array (even the empty one) is truthy. -/
def truthy : Option FieldValue → Bool
  | none => false
  | some (.scalar s) => !s.isEmpty
  | some (.list _) => true

/-- Coerce an optional value to a list of scalars; `none` yields `[]`, which
matches no scalar, exactly as JS [undefined] matches no string target. -/
def valueList : Option FieldValue → List Str
  | none => []
  | some v => v.toList

/-- A document in the store: file path plus frontmatter fields. -/
structure Doc where
  path : Str
  fields : List (Str × FieldValue)
deriving DecidableEq

/-- JS property access p[field]; undefined when the field is absent. -/
def Doc.get (d : Doc) (f : Str) : Option FieldValue :=
  (d.fields.find? (fun e => e.1 == f)).map (fun e => e.2)

/-- One matchCriteria entry: true | null/false | explicit value. -/
inductive CriteriaValue where
  | useCurrent
  | ignore
  | explicit (v : FieldValue)
deriving DecidableEq

/-- The three recognized values of the includePath option. -/
inductive IncludePathMode where
  | enabled
  | disabled
  | strict
deriving DecidableEq

/-- The configuration object of getRelatedConcepts, after destructuring. -/
structure Config where
  matchCriteria : List (Str × CriteriaValue)
  includePath : IncludePathMode
  strictPath : Bool
  minScore : ℚ
  maxResults : ℕ
  scoreMultiplier : ℚ
deriving DecidableEq

/-- JS "str".split('/'): note "".split('/') = [""]. -/
def splitSlash : Str → List Str
  | [] => [[]]
  | c :: cs =>
    if c = '/' then [] :: splitSlash cs
    else
      match splitSlash cs with
      | [] => [[c]]
      | p :: ps => (c :: p) :: ps

/-- JS parts.join('/'). -/
def joinSlash : List Str → Str
  | [] => []
  | [p] => p
  | p :: ps => p ++ '/' :: joinSlash ps

/-- pathParts.slice(0, -1).join('/'): the directory of a path. -/
def dirPath (p : Str) : Str := joinSlash (splitSlash p).dropLast

/-- path.split('/').length - 1. -/
def pathDepth (p : Str) : ℕ := (splitSlash p).length - 1

/-- Return value of getFilesInSamePath. -/
structure PathFiles where
  exactFolder : List Doc
  subFolders : List Doc
deriving DecidableEq

/-- ConceptManager.getFilesInSamePath: keep every page whose path startsWith
the current directory (string prefix) and is not the current path, splitting
by whether the page's slash-depth equals the current path's slash-depth. -/
def getFilesInSamePath (pages : List Doc) (currentPath : Str) : PathFiles :=
  let dp := dirPath currentPath
  let currentDepth := pathDepth currentPath
  let allSamePathFiles :=
    pages.filter (fun p => dp.isPrefixOf p.path && p.path != currentPath)
  ⟨allSamePathFiles.filter (fun p => pathDepth p.path == currentDepth),
   allSamePathFiles.filter (fun p => pathDepth p.path != currentDepth)⟩

/-- The default matchCriteria installed when the given one is empty. -/
def defaultCriteria : List (Str × CriteriaValue) :=
  [("subject".toList, .useCurrent), ("type".toList, .useCurrent),
   ("domain".toList, .useCurrent)]

/-- Apply the empty-criteria defaulting step. -/
def effectiveCriteria (mc : List (Str × CriteriaValue)) : List (Str × CriteriaValue) :=
  if mc.isEmpty then defaultCriteria else mc

/-- strictPath after the includePath === "strict" override. -/
def effectiveStrictPath (cfg : Config) : Bool :=
  cfg.strictPath || cfg.includePath == .strict

/-- Whether path scoring runs (includePath truthy after the override). -/
def effectiveIncludePath (cfg : Config) : Bool :=
  cfg.includePath != .disabled

/-- Resolve matchCriteria against the current document: null/false entries
are dropped; true reads the current document's (possibly absent) value;
anything else is an explicit target. -/
def resolveCriteria (current : Doc) (mc : List (Str × CriteriaValue)) :
    List (Str × Option FieldValue) :=
  mc.filterMap (fun e =>
    match e.2 with
    | .ignore => none
    | .useCurrent => some (e.1, current.get e.1)
    | .explicit v => some (e.1, some v))

/-- searchFilters[g]: the resolved value for g when g appears among the
resolved criteria (it may be an absent/falsy value, in which case the filter
is a no-op, exactly as in JS). -/
def searchFilter (resolved : List (Str × Option FieldValue)) (g : Str) :
    Option FieldValue :=
  match resolved.find? (fun e => e.1 == g) with
  | some e => e.2
  | none => none

/-- searchValues.includes(p[g]) with p[g] used raw: only a scalar field value
can be an element of a list of scalars. -/
def scalarIncludes (l : List Str) (raw : Option FieldValue) : Bool :=
  match raw with
  | some (.scalar s) => l.contains s
  | _ => false

/-- One subject/domain pre-filter: applied only when the stored filter value
is truthy. -/
def passesFilter (filt : Option FieldValue) (raw : Option FieldValue) : Bool :=
  if truthy filt then scalarIncludes (valueList filt) raw else true

/-- The field-match part of the candidate predicate: the page's value for f
must be truthy and intersect the target values. -/
def fieldMatches (p : Doc) (f : Str) (targetValues : List Str) : Bool :=
  if truthy (p.get f) then
    targetValues.any (fun tv => (valueList (p.get f)).contains tv)
  else false

/-- The full candidate predicate of the field-matching stage: subject filter,
domain filter, then the field match. -/
def candidateMatches (resolved : List (Str × Option FieldValue)) (f : Str)
    (targetValues : List Str) (p : Doc) : Bool :=
  passesFilter (searchFilter resolved "subject".toList) (p.get "subject".toList) &&
  passesFilter (searchFilter resolved "domain".toList) (p.get "domain".toList) &&
  fieldMatches p f targetValues

/-- The per-candidate score map: score-source name to points. -/
abbrev Scores := List (Str × ℚ)

/-- JS Map.set on the score map: replace in place, else append. -/
def setScore (sc : Scores) (k : Str) (v : ℚ) : Scores :=
  if sc.any (fun e => e.1 == k) then
    sc.map (fun e => if e.1 == k then (k, v) else e)
  else sc ++ [(k, v)]

/-- JS scores.get(k) || 0. -/
def getScore (sc : Scores) (k : Str) : ℚ :=
  match sc.find? (fun e => e.1 == k) with
  | some e => e.2
  | none => 0

/-- One entry of the relatedConcepts map. -/
structure Entry where
  concept : Doc
  scores : Scores
deriving DecidableEq

/-- The relatedConcepts map: insertion-ordered, keyed by document path. -/
abbrev RelAcc := List (Str × Entry)

/-- JS Map.set on the accumulator: replace in place, else append. -/
def accSet (acc : RelAcc) (k : Str) (e : Entry) : RelAcc :=
  if acc.any (fun x => x.1 == k) then
    acc.map (fun x => if x.1 == k then (k, e) else x)
  else acc ++ [(k, e)]

/-- The literal score-source name "path". -/
def pathKey : Str := "path".toList

/-- Path stage: 2 points for every exact-folder file, 1 point for every
subfolder file, inserted with Map.set. -/
def addPathScores (acc : RelAcc) (pf : PathFiles) : RelAcc :=
  pf.subFolders.foldl (fun a c => accSet a c.path ⟨c, [(pathKey, 1)]⟩)
    (pf.exactFolder.foldl (fun a c => accSet a c.path ⟨c, [(pathKey, 2)]⟩) acc)

/-- Score one matching concept for one field: create its entry (path score 0)
if absent, then set its score for this field to matchCount × multiplier. -/
def scoreConcept (f : Str) (targetValues : List Str) (mult : ℚ) (acc : RelAcc) (c : Doc) : RelAcc :=
  (if acc.any (fun x => x.1 == c.path) then acc
   else acc ++ [(c.path, ⟨c, [(pathKey, 0)]⟩)]).map (fun x =>
    if x.1 == c.path then
      (x.1, ⟨x.2.concept, setScore x.2.scores f
        (((targetValues.filter (fun v => (valueList (c.get f)).contains v)).length : ℚ) * mult)⟩)
    else x)

/-- Process one resolved criterion field: skipped when the target is falsy,
otherwise every candidate passing the filters and the field match is scored. -/
def processField (pages : List Doc) (resolved : List (Str × Option FieldValue)) (mult : ℚ)
    (acc : RelAcc) (e : Str × Option FieldValue) : RelAcc :=
  if truthy e.2 then
    (pages.filter (candidateMatches resolved e.1 (valueList e.2))).foldl
      (scoreConcept e.1 (valueList e.2) mult) acc
  else acc

/-- maxPossibleScore: strictPath ? 0 : 2, plus |targets| × multiplier for
every truthy resolved criterion field. -/
def maxPossibleScore (resolved : List (Str × Option FieldValue)) (strictPath : Bool)
    (mult : ℚ) : ℚ :=
  resolved.foldl
    (fun s e => if truthy e.2 then s + ((valueList e.2).length : ℚ) * mult else s)
    (if strictPath then 0 else 2)

/-- The output record of getRelatedConcepts. -/
structure RelatedResult where
  concept : Doc
  confidence : ℚ
  inSamePath : Bool
deriving DecidableEq

/-- totalScore: the path score plus the sum of the non-path field scores. -/
def totalScoreOf (sc : Scores) : ℚ :=
  getScore sc pathKey + ((sc.filter (fun x => x.1 != pathKey)).map (fun x => x.2)).sum

/-- Turn one accumulator entry into a result: confidence is guarded against
division by zero, and inSamePath records a strictly positive path score. -/
def resultOf (maxScore : ℚ) (e : Entry) : RelatedResult :=
  ⟨e.concept, if maxScore > 0 then totalScoreOf e.scores / maxScore * 100 else 0,
   decide (getScore e.scores pathKey > 0)⟩

/-- Stable insertion into a list already sorted by le: the new element goes
after every element it ties with. -/
def insertLe {α : Type} (le : α → α → Bool) (a : α) : List α → List α
  | [] => [a]
  | b :: bs => if le b a then b :: insertLe le a bs else a :: b :: bs

/-- Stable sort (the unique stable order for a total preorder comparator),
modelling Array.prototype.sort. -/
def stableSortBy {α : Type} (le : α → α → Bool) (l : List α) : List α :=
  l.foldl (fun s a => insertLe le a s) []

/-- The accumulator after the path stage: empty unless path scoring runs. -/
def pathStageAcc (pages : List Doc) (current : Doc) (cfg : Config) : RelAcc :=
  if effectiveIncludePath cfg then addPathScores [] (getFilesInSamePath pages current.path)
  else []

/-- The relatedConcepts map after the path stage and the field-matching
stage. -/
def relatedAcc (pages : List Doc) (current : Doc) (cfg : Config) : RelAcc :=
  (resolveCriteria current (effectiveCriteria cfg.matchCriteria)).foldl
    (processField pages (resolveCriteria current (effectiveCriteria cfg.matchCriteria))
      cfg.scoreMultiplier)
    (pathStageAcc pages current cfg)

/-- ConceptManager.getRelatedConcepts (current version): resolve criteria,
path stage, field-matching stage, confidence normalization, then
strict-path filter, stable descending sort, minScore filter and maxResults
truncation. -/
def getRelatedConcepts (pages : List Doc) (current : Doc) (cfg : Config) :
    List RelatedResult :=
  ((stableSortBy (fun a b => decide (b.confidence ≤ a.confidence))
      (((relatedAcc pages current cfg).map (fun x =>
          resultOf
            (maxPossibleScore (resolveCriteria current (effectiveCriteria cfg.matchCriteria))
              (effectiveStrictPath cfg) cfg.scoreMultiplier) x.2)).filter
        (fun r => !effectiveStrictPath cfg || r.inSamePath))).filter
    (fun r => r.confidence ≥ cfg.minScore * 100)).take cfg.maxResults

/-- Modelled from the spec: the spec's "not pre-filtering at all" variant of
the field-matching stage (the subject/domain search filters are omitted from
the candidate predicate; everything else is identical).  The spec demands
this variant return results identical to getRelatedConcepts. -/
def processFieldNoPreFilter (pages : List Doc) (mult : ℚ)
    (acc : RelAcc) (e : Str × Option FieldValue) : RelAcc :=
  if truthy e.2 then
    (pages.filter (fun p => fieldMatches p e.1 (valueList e.2))).foldl
      (scoreConcept e.1 (valueList e.2) mult) acc
  else acc

/-- Modelled from the spec: getRelatedConcepts computed "without
pre-filtering at all", for the refinement claim about the subject/domain
pre-filters. -/
def getRelatedConceptsNoPreFilter (pages : List Doc) (current : Doc) (cfg : Config) :
    List RelatedResult :=
  ((stableSortBy (fun a b => decide (b.confidence ≤ a.confidence))
      ((((resolveCriteria current (effectiveCriteria cfg.matchCriteria)).foldl
            (processFieldNoPreFilter pages cfg.scoreMultiplier)
            (pathStageAcc pages current cfg)).map (fun x =>
          resultOf
            (maxPossibleScore (resolveCriteria current (effectiveCriteria cfg.matchCriteria))
              (effectiveStrictPath cfg) cfg.scoreMultiplier) x.2)).filter
        (fun r => !effectiveStrictPath cfg || r.inSamePath))).filter
    (fun r => r.confidence ≥ cfg.minScore * 100)).take cfg.maxResults

/- Concrete documents and configurations used by the witnesses and
counterexamples below.  Suffix letters group them by scenario. -/

/-- Scenario A (strict path with a field criterion): the reference. -/
def curA : Doc := ⟨"A/cur.md".toList, [("type".toList, .scalar "hub".toList)]⟩

/-- Scenario A: a candidate in the same folder with the same type. -/
def candA : Doc := ⟨"A/c.md".toList, [("type".toList, .scalar "hub".toList)]⟩

/-- Scenario A: explicit type criterion, path scoring on, strictPath true. -/
def cfgA : Config :=
  ⟨[("type".toList, .explicit (.scalar "hub".toList))], .enabled, true, 66/100, 10, 3/2⟩

/-- Scenario B (the spec's worked example): reference with type hub and
subject PKM. -/
def curB : Doc :=
  ⟨"r/cur.md".toList,
   [("type".toList, .scalar "hub".toList), ("subject".toList, .scalar "PKM".toList)]⟩

/-- Scenario B: candidate X matching both fields. -/
def xB : Doc :=
  ⟨"r/x.md".toList,
   [("type".toList, .scalar "hub".toList), ("subject".toList, .scalar "PKM".toList)]⟩

/-- Scenario B: candidate Y matching only the type. -/
def yB : Doc := ⟨"r/y.md".toList, [("type".toList, .scalar "hub".toList)]⟩

/-- Scenario B: criteria type/subject UseCurrent, includePath false,
minScore 0, multiplier 1.5. -/
def cfgB : Config :=
  ⟨[("type".toList, .useCurrent), ("subject".toList, .useCurrent)], .disabled, false, 0, 10, 3/2⟩

/-- Scenario C (self-match): a reference that matches its own criterion. -/
def curC : Doc := ⟨"A/cur.md".toList, [("type".toList, .scalar "hub".toList)]⟩

/-- Scenario C: explicit type criterion, no path scoring, minScore 0. -/
def cfgC : Config :=
  ⟨[("type".toList, .explicit (.scalar "hub".toList))], .disabled, false, 0, 10, 3/2⟩

/-- Scenario D (string-prefix folder confusion): reference in folder A/B. -/
def curD : Doc := ⟨"A/B/doc.md".toList, []⟩

/-- Scenario D: a document in the sibling folder A/BC. -/
def zD : Doc := ⟨"A/BC/x.md".toList, []⟩

/-- Scenario D: only an ignored criterion, path scoring on, minScore 0.5. -/
def cfgD : Config := ⟨[("q".toList, .ignore)], .enabled, false, 1/2, 10, 3/2⟩

/-- Scenario E (list-valued subject): reference with scalar subject A. -/
def curE : Doc := ⟨"r/cur.md".toList, [("subject".toList, .scalar "A".toList)]⟩

/-- Scenario E: candidate whose subject holds a list containing A. -/
def wE : Doc := ⟨"r/w.md".toList, [("subject".toList, .list ["A".toList, "B".toList])]⟩

/-- Scenario E: subject UseCurrent, no path scoring, minScore 0. -/
def cfgE : Config := ⟨[("subject".toList, .useCurrent)], .disabled, false, 0, 10, 3/2⟩

/-- Scenario F (pure strict-path run): the reference. -/
def curF : Doc := ⟨"A/cur.md".toList, []⟩

/-- Scenario F: a candidate in the same folder. -/
def candF : Doc := ⟨"A/c.md".toList, []⟩

/-- Scenario F: only an ignored criterion, path scoring on, strictPath true,
minScore 0. -/
def cfgF : Config := ⟨[("q".toList, .ignore)], .enabled, true, 0, 10, 3/2⟩

/-- Scenario G (UseCurrent on an absent field): criteria with an explicit
type target followed by subject UseCurrent. -/
def cfgG : Config :=
  ⟨[("type".toList, .explicit (.scalar "hub".toList)), ("subject".toList, .useCurrent)],
   .disabled, false, 0, 10, 3/2⟩

/-- Scenario H (empty matchCriteria): reference carrying the three default
fields. -/
def curH : Doc :=
  ⟨"r/cur.md".toList,
   [("subject".toList, .scalar "S".toList), ("type".toList, .scalar "hub".toList),
    ("domain".toList, .scalar "concepts".toList)]⟩

/-- Scenario H: a candidate carrying the same three fields. -/
def candH : Doc :=
  ⟨"r/c.md".toList,
   [("subject".toList, .scalar "S".toList), ("type".toList, .scalar "hub".toList),
    ("domain".toList, .scalar "concepts".toList)]⟩

/-- Scenario H: empty matchCriteria, includePath false, minScore 0. -/
def cfgH : Config := ⟨[], .disabled, false, 0, 10, 3/2⟩

/-- Scenario H: a reference document with no frontmatter at all. -/
def curN : Doc := ⟨"x".toList, []⟩

/-- Scenario E witness document: scalar subject B. -/
def pW : Doc := ⟨"r/p.md".toList, [("subject".toList, .scalar "B".toList)]⟩

/-- Well-formedness of the relatedConcepts map. -/
def accWF (acc : RelAcc) : Prop :=
  (acc.map Prod.fst).Nodup ∧ ∀ x ∈ acc, x.2.concept.path = x.1

/-- The provenance property: any entry whose path score is strictly positive
cannot be the reference document (as long as no criterion field is literally
named "path", the field stage never touches the path score). -/
def pathProvenance (cp : Str) (acc : RelAcc) : Prop :=
  ∀ x ∈ acc, 0 < getScore x.2.scores pathKey → x.2.concept.path ≠ cp

/-- The field names of the truthy resolved criteria, in order. -/
def truthyKeys (l : List (Str × Option FieldValue)) : List Str :=
  (l.filter (fun e => truthy e.2)).map Prod.fst

/-- The maxPossibleScore contribution of the (unique, when keys are distinct)
truthy criterion with the given field name; 0 when there is none. -/
def bndOf (R : List (Str × Option FieldValue)) (mult : ℚ) (k : Str) : ℚ :=
  match (R.filter (fun e => truthy e.2)).find? (fun e => e.1 == k) with
  | some e => ((valueList e.2).length : ℚ) * mult
  | none => 0

/-- Invariant on a score map after the fields of the prefix D of the resolved
criteria R have been processed: the map is a "path" head whose value is
bounded by 2 (or by the "path" criterion's own contribution if a criterion is
literally named "path"), followed by entries for already-processed truthy
non-"path" fields in processing order, each bounded by its criterion's
contribution to maxPossibleScore. -/
def scoreOk (R D : List (Str × Option FieldValue)) (mult : ℚ) (sc : Scores) : Prop :=
  ∃ p l, sc = (pathKey, p) :: l
    ∧ 0 ≤ p
    ∧ (p ≤ 2 ∨ ∃ e ∈ R, e.1 = pathKey ∧ truthy e.2 = true ∧
        p ≤ ((valueList e.2).length : ℚ) * mult)
    ∧ List.Sublist (l.map Prod.fst) ((truthyKeys D).filter (fun k => !(k == pathKey)))
    ∧ ∀ kv ∈ l, 0 ≤ kv.2 ∧ ∃ e ∈ R, e.1 = kv.1 ∧ truthy e.2 = true ∧
        kv.2 ≤ ((valueList e.2).length : ℚ) * mult

/- ------------------------------------------------------------------
   General lemmas: the stable sort, folds, and accumulator membership.
   ------------------------------------------------------------------ -/

set_option maxRecDepth 100000

theorem insertLe_perm {α : Type} (le : α → α → Bool) (a : α) :
    ∀ l : List α, List.Perm (insertLe le a l) (a :: l) := by
  intro l
  induction l with
  | nil => exact List.Perm.refl _
  | cons b bs ih =>
    rw [insertLe]
    by_cases h : le b a = true
    · rw [if_pos h]
      exact List.Perm.trans (List.Perm.cons b ih) (List.Perm.swap a b bs)
    · rw [if_neg h]

theorem stableSortBy_go_perm {α : Type} (le : α → α → Bool) :
    ∀ (l acc : List α),
      List.Perm (l.foldl (fun s a => insertLe le a s) acc) (l ++ acc) := by
  intro l
  induction l with
  | nil => intro acc; exact List.Perm.refl _
  | cons a l ih =>
    intro acc
    rw [List.foldl_cons]
    have h1 := ih (insertLe le a acc)
    have h2 : List.Perm (l ++ insertLe le a acc) (l ++ a :: acc) :=
      List.Perm.append_left l (insertLe_perm le a acc)
    have h3 : List.Perm (l ++ a :: acc) (a :: (l ++ acc)) := List.perm_middle
    simpa using (h1.trans h2).trans h3

theorem stableSortBy_perm {α : Type} (le : α → α → Bool) (l : List α) :
    List.Perm (stableSortBy le l) l := by
  simpa using stableSortBy_go_perm le l []

theorem foldl_invariant {β γ : Type} {step : γ → β → γ} {Q : γ → Prop} :
    ∀ (l : List β) (acc : γ), Q acc → (∀ a b, b ∈ l → Q a → Q (step a b)) →
      Q (List.foldl step acc l) := by
  intro l
  induction l with
  | nil => intro acc h _; simpa using h
  | cons b l ih =>
    intro acc h hstep
    rw [List.foldl_cons]
    exact ih _ (hstep acc b (by simp) h) (fun a c hc ha => hstep a c (by simp [hc]) ha)

theorem foldl_fixed {β γ : Type} {step : γ → β → γ} :
    ∀ (l : List β) (acc : γ), (∀ a b, b ∈ l → step a b = a) →
      List.foldl step acc l = acc := by
  intro l
  induction l with
  | nil => intro acc _; rfl
  | cons b l ih =>
    intro acc h
    rw [List.foldl_cons, h acc b (by simp)]
    exact ih acc (fun a c hc => h a c (by simp [hc]))

theorem foldl_entry_invariant {β : Type} {step : RelAcc → β → RelAcc}
    {P : Str × Entry → Prop} :
    ∀ (l : List β) (acc : RelAcc), (∀ x ∈ acc, P x) →
      (∀ a b, b ∈ l → (∀ x ∈ a, P x) → ∀ x ∈ step a b, P x) →
      ∀ x ∈ List.foldl step acc l, P x := by
  intro l
  induction l with
  | nil => intro acc h _ x hx; rw [List.foldl_nil] at hx; exact h x hx
  | cons b l ih =>
    intro acc h hstep x hx
    rw [List.foldl_cons] at hx
    exact ih _ (hstep acc b (by simp) h)
      (fun a c hc ha => hstep a c (by simp [hc]) ha) x hx

theorem mem_accSet {acc : RelAcc} {k : Str} {e : Entry} {x : Str × Entry}
    (hx : x ∈ accSet acc k e) : x ∈ acc ∨ x = (k, e) := by
  rw [accSet] at hx
  by_cases h : acc.any (fun y => y.1 == k) = true
  · rw [if_pos h] at hx
    rcases List.mem_map.mp hx with ⟨y, hy, hxy⟩
    by_cases hk : (y.1 == k) = true
    · right; rw [if_pos hk] at hxy; exact hxy.symm
    · left; rw [if_neg hk] at hxy; rw [← hxy]; exact hy
  · rw [if_neg h] at hx
    rcases List.mem_append.mp hx with h1 | h1
    · exact Or.inl h1
    · right; simpa using h1

theorem mem_scoreConcept {f : Str} {tv : List Str} {mult : ℚ} {acc : RelAcc} {c : Doc}
    {x : Str × Entry} (hx : x ∈ scoreConcept f tv mult acc c) :
    ∃ y, (y ∈ acc ∨ y = (c.path, ⟨c, [(pathKey, 0)]⟩)) ∧
      (x = y ∨ x = (y.1, ⟨y.2.concept, setScore y.2.scores f
        (((tv.filter (fun v => (valueList (c.get f)).contains v)).length : ℚ) * mult)⟩)) := by
  rw [scoreConcept] at hx
  rcases List.mem_map.mp hx with ⟨y, hy, hxy⟩
  have hy' : y ∈ acc ∨ y = (c.path, ⟨c, [(pathKey, 0)]⟩) := by
    by_cases h : acc.any (fun z => z.1 == c.path) = true
    · rw [if_pos h] at hy; exact Or.inl hy
    · rw [if_neg h] at hy
      rcases List.mem_append.mp hy with h1 | h1
      · exact Or.inl h1
      · right; simpa using h1
  refine ⟨y, hy', ?_⟩
  by_cases hk : (y.1 == c.path) = true
  · right; rw [if_pos hk] at hxy
    rw [← hxy]
  · left; rw [if_neg hk] at hxy; exact hxy.symm

theorem mem_getRelatedConcepts {pages : List Doc} {current : Doc} {cfg : Config}
    {r : RelatedResult} (hr : r ∈ getRelatedConcepts pages current cfg) :
    (∃ x ∈ relatedAcc pages current cfg,
        r = resultOf
          (maxPossibleScore (resolveCriteria current (effectiveCriteria cfg.matchCriteria))
            (effectiveStrictPath cfg) cfg.scoreMultiplier) x.2) ∧
    (effectiveStrictPath cfg = true → r.inSamePath = true) := by
  rw [getRelatedConcepts] at hr
  have h1 := List.mem_of_mem_take hr
  have h2 := (List.mem_filter.mp h1).1
  have h3 := ((stableSortBy_perm _ _).mem_iff).mp h2
  have h4 := List.mem_filter.mp h3
  rcases List.mem_map.mp h4.1 with ⟨x, hx, hxr⟩
  refine ⟨⟨x, hx, hxr.symm⟩, ?_⟩
  intro hstrict
  have h5 := h4.2
  rw [hstrict] at h5
  simpa using h5

/-- C6: for every store and configuration with effective strictPath = true
(including includePath = "strict" forcing it), every result returned by
getRelatedConcepts has inSamePath = true. -/
theorem c6_strict_path_results (pages : List Doc) (current : Doc) (cfg : Config)
    (hs : effectiveStrictPath cfg = true) :
    ∀ r ∈ getRelatedConcepts pages current cfg, r.inSamePath = true :=
  fun _ hr => (mem_getRelatedConcepts hr).2 hs

/-- C6 witness: a concrete strict-path run whose (nonempty) result list the
theorem is applied to. -/
theorem c6_witness : (⟨candF, 0, true⟩ : RelatedResult).inSamePath = true :=
  c6_strict_path_results [curF, candF] curF cfgF (by decide) ⟨candF, 0, true⟩
    (by with_unfolding_all decide)

/-- C9: getRelatedConcepts is deterministic — it is a pure function of the
reference document, the store snapshot and the configuration, so two
invocations on equal inputs return identical ordered lists. -/
theorem c9_deterministic (pages₁ pages₂ : List Doc) (current₁ current₂ : Doc)
    (cfg₁ cfg₂ : Config) (hp : pages₁ = pages₂) (hc : current₁ = current₂)
    (hg : cfg₁ = cfg₂) :
    getRelatedConcepts pages₁ current₁ cfg₁ = getRelatedConcepts pages₂ current₂ cfg₂ := by
  rw [hp, hc, hg]

/-- C9 witness: two invocations on a concrete unchanged input coincide. -/
theorem c9_witness :
    getRelatedConcepts [curC] curC cfgC = getRelatedConcepts [curC] curC cfgC :=
  c9_deterministic [curC] [curC] curC curC cfgC cfgC rfl rfl rfl

/- ------------------------------------------------------------------
   Accumulator well-formedness: distinct keys, each entry keyed by its
   own document's path.
   ------------------------------------------------------------------ -/

theorem accWF_append_new {acc : RelAcc} {k : Str} {e : Entry} (h : accWF acc)
    (hany : ¬ acc.any (fun x => x.1 == k) = true) (he : e.concept.path = k) :
    accWF (acc ++ [(k, e)]) := by
  rcases h with ⟨hnd, hco⟩
  constructor
  · rw [List.map_append]
    refine List.Nodup.append hnd (List.nodup_singleton k) ?_
    intro a ha hb
    rcases List.mem_map.mp ha with ⟨x, hx, hax⟩
    have hk : a = k := by simpa using hb
    rw [List.any_eq_true] at hany
    push_neg at hany
    exact absurd (by rw [hax, hk] : x.1 = k) (by simpa using hany x hx)
  · intro x hx
    rcases List.mem_append.mp hx with h1 | h1
    · exact hco x h1
    · have : x = (k, e) := by simpa using h1
      rw [this]; exact he

theorem accWF_replace {acc : RelAcc} {k : Str} {e : Entry} (h : accWF acc)
    (he : e.concept.path = k) :
    accWF (acc.map (fun x => if x.1 == k then (k, e) else x)) := by
  rcases h with ⟨hnd, hco⟩
  constructor
  · have hkeys : (acc.map (fun x => if x.1 == k then (k, e) else x)).map Prod.fst
        = acc.map Prod.fst := by
      rw [List.map_map]
      refine List.map_congr_left ?_
      intro a _
      by_cases hk : (a.1 == k) = true
      · have : a.1 = k := by simpa using hk
        simp only [Function.comp_apply]
        rw [if_pos hk, this]
      · simp only [Function.comp_apply]
        rw [if_neg hk]
    rw [hkeys]; exact hnd
  · intro x hx
    rcases List.mem_map.mp hx with ⟨y, hy, hxy⟩
    by_cases hk : (y.1 == k) = true
    · rw [if_pos hk] at hxy; rw [← hxy]; exact he
    · rw [if_neg hk] at hxy; rw [← hxy]; exact hco y hy

theorem accWF_update {acc : RelAcc} {k : Str} (g : Entry → Entry) (h : accWF acc)
    (hg : ∀ e, (g e).concept = e.concept) :
    accWF (acc.map (fun x => if x.1 == k then (x.1, g x.2) else x)) := by
  rcases h with ⟨hnd, hco⟩
  constructor
  · have hkeys : (acc.map (fun x => if x.1 == k then (x.1, g x.2) else x)).map Prod.fst
        = acc.map Prod.fst := by
      rw [List.map_map]
      refine List.map_congr_left ?_
      intro a _
      by_cases hk : (a.1 == k) = true
      · simp only [Function.comp_apply]; rw [if_pos hk]
      · simp only [Function.comp_apply]; rw [if_neg hk]
    rw [hkeys]; exact hnd
  · intro x hx
    rcases List.mem_map.mp hx with ⟨y, hy, hxy⟩
    by_cases hk : (y.1 == k) = true
    · rw [if_pos hk] at hxy; rw [← hxy]
      show (g y.2).concept.path = y.1
      rw [hg y.2]; exact hco y hy
    · rw [if_neg hk] at hxy; rw [← hxy]; exact hco y hy

theorem accWF_accSet {acc : RelAcc} {k : Str} {e : Entry} (h : accWF acc)
    (he : e.concept.path = k) : accWF (accSet acc k e) := by
  rw [accSet]
  by_cases hany : acc.any (fun x => x.1 == k) = true
  · rw [if_pos hany]; exact accWF_replace h he
  · rw [if_neg hany]; exact accWF_append_new h hany he

theorem accWF_scoreConcept {f : Str} {tv : List Str} {mult : ℚ} {acc : RelAcc} {c : Doc}
    (h : accWF acc) : accWF (scoreConcept f tv mult acc c) := by
  rw [scoreConcept]
  have hbase : accWF (if acc.any (fun x => x.1 == c.path) = true then acc
      else acc ++ [(c.path, ⟨c, [(pathKey, 0)]⟩)]) := by
    by_cases hany : acc.any (fun x => x.1 == c.path) = true
    · rw [if_pos hany]; exact h
    · rw [if_neg hany]; exact accWF_append_new h hany rfl
  exact accWF_update (fun e => ⟨e.concept, setScore e.scores f
    (((tv.filter (fun v => (valueList (c.get f)).contains v)).length : ℚ) * mult)⟩)
    hbase (fun e => rfl)

theorem accWF_addPathScores {acc : RelAcc} {pf : PathFiles} (h : accWF acc) :
    accWF (addPathScores acc pf) := by
  rw [addPathScores]
  refine foldl_invariant pf.subFolders _ ?_ ?_
  · refine foldl_invariant pf.exactFolder acc h ?_
    intro a b _ ha
    exact accWF_accSet ha rfl
  · intro a b _ ha
    exact accWF_accSet ha rfl

theorem accWF_pathStageAcc (pages : List Doc) (current : Doc) (cfg : Config) :
    accWF (pathStageAcc pages current cfg) := by
  rw [pathStageAcc]
  by_cases h : effectiveIncludePath cfg = true
  · rw [if_pos h]
    exact accWF_addPathScores ⟨List.nodup_nil, by intro x hx; simp at hx⟩
  · rw [if_neg h]
    exact ⟨List.nodup_nil, by intro x hx; simp at hx⟩

theorem accWF_processField {pages : List Doc} {resolved : List (Str × Option FieldValue)}
    {mult : ℚ} {acc : RelAcc} {e : Str × Option FieldValue} (h : accWF acc) :
    accWF (processField pages resolved mult acc e) := by
  rw [processField]
  by_cases ht : truthy e.2 = true
  · rw [if_pos ht]
    refine foldl_invariant _ _ h ?_
    intro a b _ ha
    exact accWF_scoreConcept ha
  · rw [if_neg ht]; exact h

theorem accWF_relatedAcc (pages : List Doc) (current : Doc) (cfg : Config) :
    accWF (relatedAcc pages current cfg) := by
  rw [relatedAcc]
  refine foldl_invariant _ _ (accWF_pathStageAcc pages current cfg) ?_
  intro a b _ ha
  exact accWF_processField ha

/-- C10: no two entries of the returned list share a document path — the
score accumulator is keyed by path, so each document yields at most one
result. -/
theorem c10_distinct_paths (pages : List Doc) (current : Doc) (cfg : Config) :
    (getRelatedConcepts pages current cfg).Pairwise
      (fun a b => a.concept.path ≠ b.concept.path) := by
  rcases accWF_relatedAcc pages current cfg with ⟨hnd, hco⟩
  have hpw : (relatedAcc pages current cfg).Pairwise (fun a b => a.1 ≠ b.1) :=
    List.pairwise_map.mp hnd
  have hpw2 : (relatedAcc pages current cfg).Pairwise
      (fun a b => a.2.concept.path ≠ b.2.concept.path) := by
    refine List.Pairwise.imp_of_mem ?_ hpw
    intro a b ha hb hne
    rw [hco a ha, hco b hb]
    exact hne
  have hres : ((relatedAcc pages current cfg).map (fun x =>
      resultOf (maxPossibleScore (resolveCriteria current (effectiveCriteria cfg.matchCriteria))
        (effectiveStrictPath cfg) cfg.scoreMultiplier) x.2)).Pairwise
      (fun a b => a.concept.path ≠ b.concept.path) := by
    rw [List.pairwise_map]
    refine hpw2.imp ?_
    intro a b hne
    simpa [resultOf] using hne
  rw [getRelatedConcepts]
  refine List.Pairwise.sublist (List.take_sublist _ _) ?_
  refine List.Pairwise.filter _ ?_
  have hsymm : ∀ {a b : RelatedResult},
      a.concept.path ≠ b.concept.path → b.concept.path ≠ a.concept.path :=
    fun h => fun heq => h heq.symm
  refine ((stableSortBy_perm _ _).pairwise_iff hsymm).mpr ?_
  exact List.Pairwise.filter _ hres

/- ------------------------------------------------------------------
   Score-map lemmas and the provenance of the path score.
   ------------------------------------------------------------------ -/

theorem getScore_cons (e : Str × ℚ) (sc : Scores) (k : Str) :
    getScore (e :: sc) k = if (e.1 == k) = true then e.2 else getScore sc k := by
  cases hek : (e.1 == k) with
  | true => simp [getScore, List.find?_cons, hek]
  | false => simp [getScore, List.find?_cons, hek]

theorem getScore_map_replace {sc : Scores} {f k : Str} {v : ℚ} (hfk : (f == k) = false) :
    getScore (sc.map (fun e => if (e.1 == f) = true then (f, v) else e)) k = getScore sc k := by
  induction sc with
  | nil => rfl
  | cons e sc ih =>
    rw [List.map_cons]
    by_cases hef : (e.1 == f) = true
    · rw [if_pos hef, getScore_cons, getScore_cons]
      have he1 : e.1 = f := by simpa using hef
      have hek : (e.1 == k) = false := by rw [he1]; exact hfk
      rw [hek, hfk]
      simp only [Bool.false_eq_true, if_false]
      exact ih
    · rw [if_neg hef, getScore_cons, getScore_cons]
      by_cases hek : (e.1 == k) = true
      · rw [if_pos hek, if_pos hek]
      · rw [if_neg hek, if_neg hek]; exact ih

theorem getScore_append_single {sc : Scores} {f k : Str} {v : ℚ} (hfk : (f == k) = false) :
    getScore (sc ++ [(f, v)]) k = getScore sc k := by
  induction sc with
  | nil =>
    rw [List.nil_append, getScore_cons, hfk]
    simp only [Bool.false_eq_true, if_false]
  | cons e sc ih =>
    rw [List.cons_append, getScore_cons, getScore_cons]
    by_cases hek : (e.1 == k) = true
    · rw [if_pos hek, if_pos hek]
    · rw [if_neg hek, if_neg hek]; exact ih

theorem getScore_setScore_ne {sc : Scores} {f k : Str} {v : ℚ} (h : k ≠ f) :
    getScore (setScore sc f v) k = getScore sc k := by
  have hfk : (f == k) = false := beq_eq_false_iff_ne.mpr (fun hq => h hq.symm)
  rw [setScore]
  by_cases hany : sc.any (fun e => e.1 == f) = true
  · rw [if_pos hany]; exact getScore_map_replace hfk
  · rw [if_neg hany]; exact getScore_append_single hfk

theorem mem_exactFolder {pages : List Doc} {cp : Str} {d : Doc} :
    d ∈ (getFilesInSamePath pages cp).exactFolder ↔
      d ∈ pages ∧ (dirPath cp).isPrefixOf d.path = true ∧ d.path ≠ cp ∧
        pathDepth d.path = pathDepth cp := by
  simp only [getFilesInSamePath, List.mem_filter, Bool.and_eq_true, bne_iff_ne, ne_eq,
    beq_iff_eq]
  tauto

theorem mem_subFolders {pages : List Doc} {cp : Str} {d : Doc} :
    d ∈ (getFilesInSamePath pages cp).subFolders ↔
      d ∈ pages ∧ (dirPath cp).isPrefixOf d.path = true ∧ d.path ≠ cp ∧
        pathDepth d.path ≠ pathDepth cp := by
  simp only [getFilesInSamePath, List.mem_filter, Bool.and_eq_true, bne_iff_ne, ne_eq]
  tauto

theorem pathProvenance_pathStageAcc (pages : List Doc) (current : Doc) (cfg : Config) :
    pathProvenance current.path (pathStageAcc pages current cfg) := by
  rw [pathStageAcc]
  by_cases h : effectiveIncludePath cfg = true
  · rw [if_pos h, addPathScores]
    refine foldl_invariant _ _ ?_ ?_
    · refine foldl_invariant _ _ ?_ ?_
      · intro x hx; simp at hx
      · intro a b hb ha
        intro x hx hpos
        rcases mem_accSet hx with h1 | h1
        · exact ha x h1 hpos
        · rw [h1]
          exact (mem_exactFolder.mp hb).2.2.1
    · intro a b hb ha
      intro x hx hpos
      rcases mem_accSet hx with h1 | h1
      · exact ha x h1 hpos
      · rw [h1]
        exact (mem_subFolders.mp hb).2.2.1
  · rw [if_neg h]
    intro x hx; simp at hx

theorem mem_keys_resolveCriteria {current : Doc} {mc : List (Str × CriteriaValue)} {k : Str}
    (h : k ∈ (resolveCriteria current mc).map Prod.fst) : k ∈ mc.map Prod.fst := by
  rcases List.mem_map.mp h with ⟨x, hx, hxk⟩
  rw [resolveCriteria] at hx
  rcases List.mem_filterMap.mp hx with ⟨e, he, hex⟩
  have : x.1 = e.1 := by
    cases hcv : e.2 with
    | useCurrent => rw [hcv] at hex; simp only [Option.some.injEq] at hex; rw [← hex]
    | ignore => rw [hcv] at hex; simp at hex
    | explicit v => rw [hcv] at hex; simp only [Option.some.injEq] at hex; rw [← hex]
  exact List.mem_map.mpr ⟨e, he, by rw [← this, hxk]⟩

theorem pathProvenance_scoreConcept {f : Str} {tv : List Str} {mult : ℚ} {acc : RelAcc}
    {c : Doc} {cp : Str} (hf : f ≠ pathKey) (h : pathProvenance cp acc) :
    pathProvenance cp (scoreConcept f tv mult acc c) := by
  intro x hx hpos
  rcases mem_scoreConcept hx with ⟨y, hy, hxy⟩
  have hnew : ∀ z : Str × Entry, z = (c.path, ⟨c, [(pathKey, 0)]⟩) →
      getScore z.2.scores pathKey = 0 := by
    intro z hz; rw [hz]
    rw [getScore_cons]
    simp
  rcases hxy with h1 | h1
  · rcases hy with h2 | h2
    · exact h x (h1 ▸ h2) hpos
    · rw [h1] at hpos
      rw [hnew y h2] at hpos
      · exact absurd hpos (by norm_num)
  · rw [h1] at hpos
    have hps : getScore (setScore y.2.scores f
        (((tv.filter (fun v => (valueList (c.get f)).contains v)).length : ℚ) * mult)) pathKey
        = getScore y.2.scores pathKey := getScore_setScore_ne (fun hq => hf hq.symm)
    rw [hps] at hpos
    rcases hy with h2 | h2
    · have := h y h2 hpos
      rw [h1]
      exact this
    · rw [hnew y h2] at hpos
      exact absurd hpos (by norm_num)

theorem pathProvenance_relatedAcc (pages : List Doc) (current : Doc) (cfg : Config)
    (hp : pathKey ∉ (effectiveCriteria cfg.matchCriteria).map Prod.fst) :
    pathProvenance current.path (relatedAcc pages current cfg) := by
  rw [relatedAcc]
  refine foldl_invariant _ _ (pathProvenance_pathStageAcc pages current cfg) ?_
  intro a b hb ha
  rw [processField]
  by_cases ht : truthy b.2 = true
  · rw [if_pos ht]
    refine foldl_invariant _ _ ha ?_
    intro a2 c _ ha2
    have hbf : b.1 ≠ pathKey := by
      intro hq
      exact hp (mem_keys_resolveCriteria (List.mem_map.mpr ⟨b, hb, hq⟩))
    exact pathProvenance_scoreConcept hbf ha2
  · rw [if_neg ht]; exact ha

/-- C3 (amended): the path-scoring stage does exclude the reference document
— when no criterion field is literally named "path", every result with
inSamePath = true concerns a document whose path differs from the
reference's; the field-matching stage however does not skip candidates whose
path equals the reference's path, so the reference itself can appear in the
returned list (counterexample: c3_counterexample). -/
theorem c3_amended (pages : List Doc) (current : Doc) (cfg : Config)
    (hp : pathKey ∉ (effectiveCriteria cfg.matchCriteria).map Prod.fst) :
    ∀ r ∈ getRelatedConcepts pages current cfg, r.inSamePath = true →
      r.concept.path ≠ current.path := by
  intro r hr hin
  rcases (mem_getRelatedConcepts hr).1 with ⟨x, hx, hrx⟩
  have hconc : r.concept = x.2.concept := by rw [hrx]; rfl
  have hins : r.inSamePath = decide (getScore x.2.scores pathKey > 0) := by rw [hrx]; rfl
  rw [hins] at hin
  have hpos : 0 < getScore x.2.scores pathKey := of_decide_eq_true hin
  rw [hconc]
  exact pathProvenance_relatedAcc pages current cfg hp x hx hpos

/-- C3 counterexample: with criteria {type: "hub"}, includePath false and
minScore 0, the reference document itself appears in its own result list. -/
theorem c3_counterexample :
    ∃ r ∈ getRelatedConcepts [curC] curC cfgC, r.concept.path = curC.path := by
  with_unfolding_all decide

/-- C3 witness: the amended theorem applied to a concrete run that returns a
path-scored result. -/
theorem c3_witness : (⟨candF, 0, true⟩ : RelatedResult).concept.path ≠ curF.path :=
  c3_amended [curF, candF] curF cfgF (by decide) ⟨candF, 0, true⟩
    (by with_unfolding_all decide) rfl

/-- C4 (amended): when path scoring is enabled, a candidate is classed
"exact folder" (2 points) iff its whole path starts with the reference's
directory as a string prefix, differs from the reference's path, and has the
same slash-depth as the reference's path; it is classed "subfolder"
(1 point) iff the same prefix and inequality hold but its slash-depth
differs (in either direction).  The class is not determined by the
candidate's own directory: a sibling folder whose name extends the
reference's folder name qualifies (counterexample: c4_counterexample). -/
theorem c4_amended (pages : List Doc) (cp : Str) (d : Doc) :
    (d ∈ (getFilesInSamePath pages cp).exactFolder ↔
      d ∈ pages ∧ (dirPath cp).isPrefixOf d.path = true ∧ d.path ≠ cp ∧
        pathDepth d.path = pathDepth cp) ∧
    (d ∈ (getFilesInSamePath pages cp).subFolders ↔
      d ∈ pages ∧ (dirPath cp).isPrefixOf d.path = true ∧ d.path ≠ cp ∧
        pathDepth d.path ≠ pathDepth cp) :=
  ⟨mem_exactFolder, mem_subFolders⟩

/-- C4 counterexample: with the reference at "A/B/doc.md", the candidate at
"A/BC/x.md" — whose directory "A/BC" is not "A/B" — receives the full
2-point exact-folder score (confidence 100 with no other criteria). -/
theorem c4_counterexample :
    ∃ r ∈ getRelatedConcepts [curD, zD] curD cfgD,
      r.inSamePath = true ∧ r.confidence = 100 ∧
        dirPath r.concept.path ≠ dirPath curD.path := by
  with_unfolding_all decide

/- ------------------------------------------------------------------
   The closed form of maxPossibleScore, and the normalization claims.
   ------------------------------------------------------------------ -/

theorem maxPossibleScore_eq (resolved : List (Str × Option FieldValue)) (strict : Bool)
    (mult : ℚ) :
    maxPossibleScore resolved strict mult =
      (if strict then (0 : ℚ) else 2) +
        ((resolved.filter (fun e => truthy e.2)).map
          (fun e => ((valueList e.2).length : ℚ) * mult)).sum := by
  rw [maxPossibleScore]
  generalize (if strict = true then (0 : ℚ) else 2) = init
  induction resolved generalizing init with
  | nil => simp
  | cons e l ih =>
    rw [List.foldl_cons]
    cases hc : truthy e.2 with
    | true =>
      rw [if_pos rfl, ih]
      simp [List.filter_cons, hc]
      ring
    | false =>
      rw [if_neg (by simp), ih]
      simp [List.filter_cons, hc]

/-- C2 (amended): the divisor maxPossibleScore equals (0 when the effective
strictPath is set, else 2) plus the sum over every truthy resolved criterion
field of |targets| × scoreMultiplier — a value computed from the reference
and configuration alone, identical for every candidate.  In the spec's
scenario (criteria {type: true, subject: true}, multiplier 1.5, includePath
false, minScore 0) the divisor is 2 + 3 = 5, so candidate X earns 60% (not
100%); candidate Y, which lacks the subject field, is removed by the subject
pre-filter, and the reference itself appears at 60%. -/
theorem c2_amended :
    (∀ (resolved : List (Str × Option FieldValue)) (strict : Bool) (mult : ℚ),
      maxPossibleScore resolved strict mult =
        (if strict then (0 : ℚ) else 2) +
          ((resolved.filter (fun e => truthy e.2)).map
            (fun e => ((valueList e.2).length : ℚ) * mult)).sum) ∧
    getRelatedConcepts [curB, xB, yB] curB cfgB =
      [⟨curB, 60, false⟩, ⟨xB, 60, false⟩] :=
  ⟨maxPossibleScore_eq, by with_unfolding_all decide⟩

/-- C2 counterexample: in the spec's scenario, candidate X is returned with
confidence 60, never 100 — the code uses strictPath (not includePath) to
decide the 2-point path headroom of the divisor. -/
theorem c2_counterexample :
    (∃ r ∈ getRelatedConcepts [curB, xB, yB] curB cfgB,
        r.concept = xB ∧ r.confidence = 60) ∧
    ∀ r ∈ getRelatedConcepts [curB, xB, yB] curB cfgB,
      r.concept = xB → r.confidence ≠ 100 := by
  with_unfolding_all decide

/-- C5 (amended): the subject/domain pre-filter is not a pure optimization —
a pre-filtered run can return a different list than the unfiltered run (see
c5_counterexample, where a candidate holding a list of subjects fails the
pre-filter yet matches the subject field).  What does hold: for a candidate
whose filtered field holds a scalar value or no value at all, failing the
pre-filter implies failing that field's match. -/
theorem c5_amended (v : Option FieldValue) (p : Doc) (g : Str)
    (hscalar : p.get g = none ∨ ∃ s, p.get g = some (FieldValue.scalar s))
    (hfail : passesFilter v (p.get g) = false) :
    fieldMatches p g (valueList v) = false := by
  rcases hscalar with h | ⟨s, h⟩
  · rw [fieldMatches, h]
    simp [truthy]
  · rw [passesFilter] at hfail
    by_cases ht : truthy v = true
    · rw [if_pos ht, h, scalarIncludes] at hfail
      rw [fieldMatches, h]
      by_cases hs : truthy (some (FieldValue.scalar s)) = true
      · rw [if_pos hs]
        rw [List.any_eq_false]
        intro tv htv hcon
        have hts : tv = s := by
          simpa [valueList, FieldValue.toList] using hcon
        rw [hts] at htv
        have hmem : (valueList v).contains s = true := by simpa using htv
        rw [hmem] at hfail
        exact absurd hfail (by simp)
      · rw [if_neg hs]
    · rw [if_neg ht] at hfail
      simp at hfail

/-- C5 witness: a concrete scalar-subject candidate that fails the subject
pre-filter also fails the subject field match. -/
theorem c5_witness :
    fieldMatches pW "subject".toList (valueList (some (FieldValue.scalar "A".toList))) = false :=
  c5_amended (some (FieldValue.scalar "A".toList)) pW "subject".toList
    (Or.inr ⟨"B".toList, by decide⟩) (by decide)

/-- C5 counterexample: with the reference's subject "A" and a candidate
whose subject is the list ["A", "B"], the pre-filtered computation and the
spec's unfiltered computation return different result lists. -/
theorem c5_counterexample :
    getRelatedConcepts [curE, wE] curE cfgE ≠
      getRelatedConceptsNoPreFilter [curE, wE] curE cfgE := by
  with_unfolding_all decide

/-- C8 (amended): an empty store yields the empty list for every reference
and configuration; an empty matchCriteria mapping is replaced by the default
criteria {subject, type, domain: UseCurrent}, so together with includePath =
false the result is empty provided the reference lacks all three default
fields (otherwise candidates may match the defaulted criteria — see
c8_counterexample); no error is possible, the function is total. -/
theorem c8_amended :
    (∀ (current : Doc) (cfg : Config), getRelatedConcepts [] current cfg = []) ∧
    (∀ (pages : List Doc) (current : Doc) (cfg : Config),
      cfg.matchCriteria = [] → cfg.includePath = IncludePathMode.disabled →
      current.get "subject".toList = none → current.get "type".toList = none →
      current.get "domain".toList = none →
      getRelatedConcepts pages current cfg = []) := by
  constructor
  · intro current cfg
    have hacc : relatedAcc [] current cfg = [] := by
      rw [relatedAcc]
      have hbase : pathStageAcc [] current cfg = [] := by
        rw [pathStageAcc]
        by_cases h : effectiveIncludePath cfg = true
        · rw [if_pos h]; rfl
        · rw [if_neg h]
      rw [hbase]
      refine foldl_fixed _ _ ?_
      intro a b _
      rw [processField]
      by_cases ht : truthy b.2 = true
      · rw [if_pos ht]; simp
      · rw [if_neg ht]
    rw [getRelatedConcepts, hacc]
    simp [stableSortBy]
  · intro pages current cfg hmc hip hs htp hd
    have hres : resolveCriteria current (effectiveCriteria cfg.matchCriteria) =
        [("subject".toList, none), ("type".toList, none), ("domain".toList, none)] := by
      rw [hmc, effectiveCriteria]
      simp only [List.isEmpty_nil, if_true, defaultCriteria, resolveCriteria,
        List.filterMap_cons, List.filterMap_nil]
      rw [hs, htp, hd]
    have heff : effectiveIncludePath cfg = false := by
      rw [effectiveIncludePath, hip]; rfl
    have hbase : pathStageAcc pages current cfg = [] := by
      rw [pathStageAcc, heff]
      simp
    have hacc : relatedAcc pages current cfg = [] := by
      rw [relatedAcc, hres, hbase]
      rfl
    rw [getRelatedConcepts, hacc]
    simp [stableSortBy]

/-- C8 witness: the amended theorem applied to a concrete nonempty store and
a reference without the default fields. -/
theorem c8_witness : getRelatedConcepts [curH, candH] curN cfgH = [] :=
  c8_amended.2 [curH, candH] curN cfgH rfl rfl rfl rfl rfl

/-- C8 counterexample: with an empty matchCriteria, includePath = false and
minScore 0, a store whose documents carry the default fields produces a
nonempty result list (the defaults {subject, type, domain: UseCurrent} are
installed). -/
theorem c8_counterexample : getRelatedConcepts [curH, candH] curH cfgH ≠ [] := by
  with_unfolding_all decide

/- ------------------------------------------------------------------
   Confidence bounds: an invariant bounding every entry's score map.
   ------------------------------------------------------------------ -/

theorem truthyKeys_append (D E : List (Str × Option FieldValue)) :
    truthyKeys (D ++ E) = truthyKeys D ++ truthyKeys E := by
  rw [truthyKeys, truthyKeys, truthyKeys, List.filter_append, List.map_append]

theorem scoreOk_mono {R D E : List (Str × Option FieldValue)} {mult : ℚ} {sc : Scores}
    (h : scoreOk R D mult sc) : scoreOk R (D ++ E) mult sc := by
  obtain ⟨p, l, hsc, hp0, hpb, hsub, hval⟩ := h
  refine ⟨p, l, hsc, hp0, hpb, ?_, hval⟩
  rw [truthyKeys_append, List.filter_append]
  exact hsub.trans (List.sublist_append_left _ _)

theorem map_id_of_eq {α : Type} {g : α → α} : ∀ {l : List α}, (∀ a ∈ l, g a = a) →
    l.map g = l := by
  intro l h
  induction l with
  | nil => rfl
  | cons a l ih => rw [List.map_cons, h a (by simp), ih (fun b hb => h b (by simp [hb]))]

theorem eq_nil_of_sublist_singleton_not_mem {α : Type} {l : List α} {a : α}
    (h : List.Sublist l [a]) (ha : a ∉ l) : l = [] := by
  cases h with
  | cons _ h2 => exact List.sublist_nil.mp h2
  | cons₂ _ h2 => exact absurd (by simp) ha

theorem keys_map_set {l : List (Str × ℚ)} {f : Str} {v : ℚ} :
    (l.map (fun e => if (e.1 == f) = true then (f, v) else e)).map Prod.fst
      = l.map Prod.fst := by
  rw [List.map_map]
  refine List.map_congr_left ?_
  intro a _
  by_cases hk : (a.1 == f) = true
  · have : a.1 = f := by simpa using hk
    simp only [Function.comp_apply]
    rw [if_pos hk, this]
  · simp only [Function.comp_apply]
    rw [if_neg hk]

theorem scoreOk_init {R D : List (Str × Option FieldValue)} {mult : ℚ} :
    scoreOk R D mult [(pathKey, 0)] :=
  ⟨0, [], rfl, le_rfl, Or.inl (by norm_num), List.nil_sublist _, by simp⟩

theorem scoreOk_pathInit {R : List (Str × Option FieldValue)} {mult : ℚ} {v : ℚ}
    (h0 : 0 ≤ v) (h2 : v ≤ 2) : scoreOk R [] mult [(pathKey, v)] :=
  ⟨v, [], rfl, h0, Or.inl h2, List.nil_sublist _, by simp⟩

theorem scoreOk_setScore {R D : List (Str × Option FieldValue)} {mult : ℚ} {sc : Scores}
    {f : Str} {tv : Option FieldValue} {v : ℚ}
    (h : scoreOk R (D ++ [(f, tv)]) mult sc) (hmem : (f, tv) ∈ R) (htr : truthy tv = true)
    (hv0 : 0 ≤ v) (hvb : v ≤ ((valueList tv).length : ℚ) * mult) :
    scoreOk R (D ++ [(f, tv)]) mult (setScore sc f v) := by
  obtain ⟨p, l, hsc, hp0, hpb, hsub, hval⟩ := h
  subst hsc
  by_cases hf : f = pathKey
  · subst hf
    rw [setScore]
    have hany : ((pathKey, p) :: l).any (fun e => e.1 == pathKey) = true := by simp
    rw [if_pos hany, List.map_cons]
    have hhead : (if ((pathKey, p).1 == pathKey) = true then (pathKey, v) else (pathKey, p))
        = (pathKey, v) := by simp
    rw [hhead]
    have hlkeys : ∀ a ∈ l, (a.1 == pathKey) = false := by
      intro a ha
      have hmem2 : a.1 ∈ (truthyKeys (D ++ [(pathKey, tv)])).filter
          (fun k => !(k == pathKey)) :=
        hsub.mem (List.mem_map.mpr ⟨a, ha, rfl⟩)
      have h2 := (List.mem_filter.mp hmem2).2
      simpa using h2
    have hmap : l.map (fun e => if (e.1 == pathKey) = true then (pathKey, v) else e) = l := by
      refine map_id_of_eq ?_
      intro a ha
      rw [if_neg (by rw [hlkeys a ha]; simp)]
    rw [hmap]
    exact ⟨v, l, rfl, hv0, Or.inr ⟨(pathKey, tv), hmem, rfl, htr, hvb⟩, hsub, hval⟩
  · have hKD2 : (truthyKeys (D ++ [(f, tv)])).filter (fun k => !(k == pathKey))
        = (truthyKeys D).filter (fun k => !(k == pathKey)) ++ [f] := by
      rw [truthyKeys_append, List.filter_append]
      congr 1
      rw [truthyKeys]
      simp [htr, beq_eq_false_iff_ne.mpr hf]
    rw [setScore]
    have hfneq : (pathKey == f) = false := beq_eq_false_iff_ne.mpr (fun hq => hf hq.symm)
    by_cases hany : ((pathKey, p) :: l).any (fun e => e.1 == f) = true
    · rw [if_pos hany, List.map_cons]
      have hhead : (if ((pathKey, p).1 == f) = true then (f, v) else (pathKey, p))
          = (pathKey, p) := by
        rw [if_neg (by show ¬ ((pathKey, p).1 == f) = true; rw [show (pathKey, p).1 = pathKey from rfl, hfneq]; simp)]
      rw [hhead]
      refine ⟨p, l.map (fun e => if (e.1 == f) = true then (f, v) else e), rfl, hp0, hpb,
        ?_, ?_⟩
      · rw [keys_map_set]
        exact hsub
      · intro kv hkv
        rcases List.mem_map.mp hkv with ⟨a, ha, hakv⟩
        by_cases hk : (a.1 == f) = true
        · rw [if_pos hk] at hakv
          rw [← hakv]
          exact ⟨hv0, ⟨(f, tv), hmem, rfl, htr, hvb⟩⟩
        · rw [if_neg hk] at hakv
          rw [← hakv]
          exact hval a ha
    · rw [if_neg hany, List.cons_append]
      have hfl : f ∉ l.map Prod.fst := by
        intro hfl
        rcases List.mem_map.mp hfl with ⟨a, ha, haf⟩
        refine hany (List.any_eq_true.mpr ⟨a, by simp [ha], ?_⟩)
        rw [haf]
        simp
      have hsub2 : List.Sublist (l.map Prod.fst)
          ((truthyKeys D).filter (fun k => !(k == pathKey))) := by
        rw [hKD2] at hsub
        rcases List.sublist_append_iff.mp hsub with ⟨l₁, l₂, hl, h₁, h₂⟩
        have hl₂ : l₂ = [] := by
          refine eq_nil_of_sublist_singleton_not_mem h₂ ?_
          intro hmem2
          refine hfl ?_
          rw [hl]
          exact List.mem_append.mpr (Or.inr hmem2)
        rw [hl₂, List.append_nil] at hl
        rw [hl]
        exact h₁
      refine ⟨p, l ++ [(f, v)], rfl, hp0, hpb, ?_, ?_⟩
      · rw [List.map_append, hKD2]
        exact List.Sublist.append hsub2 (by simp)
      · intro kv hkv
        rcases List.mem_append.mp hkv with h1 | h1
        · exact hval kv h1
        · have hkvfv : kv = (f, v) := by simpa using h1
          rw [hkvfv]
          exact ⟨hv0, ⟨(f, tv), hmem, rfl, htr, hvb⟩⟩

theorem scoreOk_scoreConcept {R D : List (Str × Option FieldValue)} {mult : ℚ}
    {f : Str} {tv : Option FieldValue} {acc : RelAcc} {c : Doc}
    (hmem : (f, tv) ∈ R) (htr : truthy tv = true) (hm : 0 ≤ mult)
    (h : ∀ x ∈ acc, scoreOk R (D ++ [(f, tv)]) mult x.2.scores) :
    ∀ x ∈ scoreConcept f (valueList tv) mult acc c,
      scoreOk R (D ++ [(f, tv)]) mult x.2.scores := by
  intro x hx
  rcases mem_scoreConcept hx with ⟨y, hy, hxy⟩
  have hyok : scoreOk R (D ++ [(f, tv)]) mult y.2.scores := by
    rcases hy with h1 | h1
    · exact h y h1
    · rw [h1]; exact scoreOk_init
  rcases hxy with h2 | h2
  · rw [h2]; exact hyok
  · rw [h2]
    refine scoreOk_setScore hyok hmem htr ?_ ?_
    · positivity
    · refine mul_le_mul_of_nonneg_right ?_ hm
      exact_mod_cast List.length_filter_le _ _

theorem scoreOk_processField (pages : List Doc) {R : List (Str × Option FieldValue)}
    {mult : ℚ} {D : List (Str × Option FieldValue)} {acc : RelAcc}
    {e : Str × Option FieldValue} (hm : 0 ≤ mult)
    (h : ∀ x ∈ acc, scoreOk R D mult x.2.scores) (hmem : e ∈ R) :
    ∀ x ∈ processField pages R mult acc e, scoreOk R (D ++ [e]) mult x.2.scores := by
  rw [processField]
  by_cases ht : truthy e.2 = true
  · rw [if_pos ht]
    refine foldl_entry_invariant _ acc (fun x hx => scoreOk_mono (h x hx)) ?_
    intro a c _ ha
    exact scoreOk_scoreConcept hmem ht hm ha
  · rw [if_neg ht]
    intro x hx
    exact scoreOk_mono (h x hx)

theorem scoreOk_fieldFold (pages : List Doc) {R : List (Str × Option FieldValue)}
    {mult : ℚ} (hm : 0 ≤ mult) :
    ∀ (R₂ D : List (Str × Option FieldValue)), (∀ e ∈ R₂, e ∈ R) →
    ∀ acc : RelAcc, (∀ x ∈ acc, scoreOk R D mult x.2.scores) →
    ∀ x ∈ R₂.foldl (processField pages R mult) acc, scoreOk R (D ++ R₂) mult x.2.scores := by
  intro R₂
  induction R₂ with
  | nil =>
    intro D _ acc h x hx
    rw [List.foldl_nil] at hx
    simpa using h x hx
  | cons e R₂ ih =>
    intro D hmem acc h x hx
    rw [List.foldl_cons] at hx
    have h1 := scoreOk_processField pages hm h (hmem e (by simp))
    have h2 := ih (D ++ [e]) (fun e' he' => hmem e' (by simp [he'])) _ h1 x hx
    simpa [List.append_assoc] using h2

theorem pathStage_scores (pages : List Doc) (current : Doc) (cfg : Config) :
    ∀ x ∈ pathStageAcc pages current cfg,
      x.2.scores = [(pathKey, 2)] ∨ x.2.scores = [(pathKey, 1)] := by
  rw [pathStageAcc]
  by_cases h : effectiveIncludePath cfg = true
  · rw [if_pos h, addPathScores]
    refine foldl_entry_invariant _ _ ?_ ?_
    · refine foldl_entry_invariant _ _ ?_ ?_
      · intro x hx; simp at hx
      · intro a b _ ha x hx
        rcases mem_accSet hx with h1 | h1
        · exact ha x h1
        · rw [h1]; left; rfl
    · intro a b _ ha x hx
      rcases mem_accSet hx with h1 | h1
      · exact ha x h1
      · rw [h1]; right; rfl
  · rw [if_neg h]; intro x hx; simp at hx

theorem scoreOk_relatedAcc {pages : List Doc} {current : Doc} {cfg : Config}
    (hm : 0 ≤ cfg.scoreMultiplier) :
    ∀ x ∈ relatedAcc pages current cfg,
      scoreOk (resolveCriteria current (effectiveCriteria cfg.matchCriteria))
        (resolveCriteria current (effectiveCriteria cfg.matchCriteria))
        cfg.scoreMultiplier x.2.scores := by
  rw [relatedAcc]
  intro x hx
  have h0 : ∀ y ∈ pathStageAcc pages current cfg,
      scoreOk (resolveCriteria current (effectiveCriteria cfg.matchCriteria)) []
        cfg.scoreMultiplier y.2.scores := by
    intro y hy
    rcases pathStage_scores pages current cfg y hy with h1 | h1
    · rw [h1]; exact scoreOk_pathInit (by norm_num) (by norm_num)
    · rw [h1]; exact scoreOk_pathInit (by norm_num) (by norm_num)
  have h2 := scoreOk_fieldFold pages hm _ [] (fun e he => he) _ h0 x hx
  simpa using h2

theorem totalScoreOf_eq {p : ℚ} {l : List (Str × ℚ)}
    (hl : ∀ a ∈ l, (a.1 == pathKey) = false) :
    totalScoreOf ((pathKey, p) :: l) = p + (l.map (fun x => x.2)).sum := by
  rw [totalScoreOf]
  have h1 : getScore ((pathKey, p) :: l) pathKey = p := by
    rw [getScore_cons]; simp
  have hh : (((pathKey, p).1 != pathKey)) = false := by simp
  have h2 : ((pathKey, p) :: l).filter (fun x => x.1 != pathKey) = l := by
    rw [List.filter_cons, hh]
    simp only [Bool.false_eq_true, if_false]
    refine List.filter_eq_self.mpr ?_
    intro a ha
    simp [bne, hl a ha]
  rw [h1, h2]

theorem find?_filter_key {R : List (Str × Option FieldValue)} {e : Str × Option FieldValue}
    (hnd : (R.map Prod.fst).Nodup) (he : e ∈ R) (htr : truthy e.2 = true) :
    (R.filter (fun x => truthy x.2)).find? (fun x => x.1 == e.1) = some e := by
  induction R with
  | nil => simp at he
  | cons a R ih =>
    rw [List.map_cons, List.nodup_cons] at hnd
    rcases List.mem_cons.mp he with h1 | h1
    · subst h1
      rw [List.filter_cons, if_pos (by simpa using htr)]
      rw [List.find?_cons_of_pos _ (by simp)]
    · have hne : (a.1 == e.1) = false := by
        refine beq_eq_false_iff_ne.mpr ?_
        intro hq
        exact hnd.1 (by rw [hq]; exact List.mem_map.mpr ⟨e, h1, rfl⟩)
      rw [List.filter_cons]
      by_cases hta : truthy a.2 = true
      · rw [if_pos (by simpa using hta)]
        rw [List.find?_cons_of_neg _ (by simp [hne])]
        exact ih hnd.2 h1
      · rw [if_neg (by simpa using hta)]
        exact ih hnd.2 h1

theorem bndOf_spec {R : List (Str × Option FieldValue)} (mult : ℚ)
    {e : Str × Option FieldValue} (hnd : (R.map Prod.fst).Nodup) (he : e ∈ R)
    (htr : truthy e.2 = true) :
    bndOf R mult e.1 = ((valueList e.2).length : ℚ) * mult := by
  rw [bndOf, find?_filter_key hnd he htr]

theorem bndOf_nonneg {R : List (Str × Option FieldValue)} {mult : ℚ} {k : Str}
    (hm : 0 ≤ mult) : 0 ≤ bndOf R mult k := by
  rw [bndOf]
  split
  · positivity
  · exact le_rfl

theorem sum_bndOf_eq {R : List (Str × Option FieldValue)} (mult : ℚ)
    (hnd : (R.map Prod.fst).Nodup) :
    ((truthyKeys R).map (bndOf R mult)).sum =
      ((R.filter (fun e => truthy e.2)).map
        (fun e => ((valueList e.2).length : ℚ) * mult)).sum := by
  rw [truthyKeys, List.map_map]
  refine congrArg List.sum ?_
  refine List.map_congr_left ?_
  intro e he
  have heR : e ∈ R := List.mem_of_mem_filter he
  have htr : truthy e.2 = true := by simpa using List.of_mem_filter he
  simp only [Function.comp_apply]
  exact bndOf_spec mult hnd heR htr

theorem sum_split_path {K : List Str} (g : Str → ℚ) (hnd : K.Nodup) (hmem : pathKey ∈ K)
    (hg : ∀ k, 0 ≤ g k) :
    g pathKey + ((K.filter (fun k => !(k == pathKey))).map g).sum ≤ (K.map g).sum := by
  induction K with
  | nil => simp at hmem
  | cons a K ih =>
    rw [List.nodup_cons] at hnd
    rw [List.map_cons, List.sum_cons, List.filter_cons]
    by_cases ha : a = pathKey
    · subst ha
      rw [if_neg (by simp)]
      have hfle : (((K.filter (fun k => !(k == pathKey))).map g)).sum ≤ (K.map g).sum := by
        refine List.Sublist.sum_le_sum ((List.filter_sublist _).map _) ?_
        intro x hx
        rcases List.mem_map.mp hx with ⟨k, _, hk⟩
        rw [← hk]; exact hg k
      linarith
    · have hmem2 : pathKey ∈ K := by
        rcases List.mem_cons.mp hmem with h1 | h1
        · exact absurd h1.symm ha
        · exact h1
      rw [if_pos (by simp [ha])]
      rw [List.map_cons, List.sum_cons]
      have := ih hnd.2 hmem2
      linarith

theorem totalScore_le_max {R : List (Str × Option FieldValue)} {mult : ℚ} {sc : Scores}
    (hnd : (R.map Prod.fst).Nodup) (hm : 0 ≤ mult) (h : scoreOk R R mult sc) :
    0 ≤ totalScoreOf sc ∧
      totalScoreOf sc ≤ 2 + ((R.filter (fun e => truthy e.2)).map
        (fun e => ((valueList e.2).length : ℚ) * mult)).sum := by
  obtain ⟨p, l, hsc, hp0, hpb, hsub, hval⟩ := h
  subst hsc
  have hlkeys : ∀ a ∈ l, (a.1 == pathKey) = false := by
    intro a ha
    have hmem2 := hsub.mem (List.mem_map.mpr ⟨a, ha, rfl⟩)
    have h2 := (List.mem_filter.mp hmem2).2
    simpa using h2
  rw [totalScoreOf_eq hlkeys]
  have hsum0 : 0 ≤ (l.map (fun x => x.2)).sum := by
    refine List.sum_nonneg ?_
    intro x hx
    rcases List.mem_map.mp hx with ⟨kv, hkv, he⟩
    rw [← he]
    exact (hval kv hkv).1
  have hstep1 : (l.map (fun x => x.2)).sum ≤ (l.map (fun kv => bndOf R mult kv.1)).sum := by
    refine List.sum_le_sum ?_
    intro kv hkv
    rcases (hval kv hkv).2 with ⟨e, heR, hekey, htr, hb⟩
    have hspec := bndOf_spec mult hnd heR htr
    rw [hekey] at hspec
    rw [hspec]
    exact hb
  have hstep2 : (l.map (fun kv => bndOf R mult kv.1)).sum
      = ((l.map Prod.fst).map (bndOf R mult)).sum := by
    rw [List.map_map]
    rfl
  have hstep3 : ((l.map Prod.fst).map (bndOf R mult)).sum
      ≤ (((truthyKeys R).filter (fun k => !(k == pathKey))).map (bndOf R mult)).sum := by
    refine List.Sublist.sum_le_sum (hsub.map (bndOf R mult)) ?_
    intro a ha
    rcases List.mem_map.mp ha with ⟨k, _, hk⟩
    rw [← hk]
    exact bndOf_nonneg hm
  have hbsum := sum_bndOf_eq mult hnd
  constructor
  · linarith
  · rcases hpb with hp2 | ⟨e, heR, hekey, htr, hple⟩
    · have hstep4 : (((truthyKeys R).filter (fun k => !(k == pathKey))).map
          (bndOf R mult)).sum ≤ ((truthyKeys R).map (bndOf R mult)).sum := by
        refine List.Sublist.sum_le_sum ((List.filter_sublist _).map _) ?_
        intro a ha
        rcases List.mem_map.mp ha with ⟨k, _, hk⟩
        rw [← hk]
        exact bndOf_nonneg hm
      linarith
    · have hbp : bndOf R mult pathKey = ((valueList e.2).length : ℚ) * mult := by
        have hspec := bndOf_spec mult hnd heR htr
        rw [hekey] at hspec
        exact hspec
      have hpmem : pathKey ∈ truthyKeys R := by
        rw [truthyKeys]
        refine List.mem_map.mpr ⟨e, ?_, hekey⟩
        exact List.mem_filter.mpr ⟨heR, by simpa using htr⟩
      have hndK : (truthyKeys R).Nodup := by
        rw [truthyKeys]
        refine List.Nodup.sublist ?_ hnd
        exact (List.filter_sublist _).map _
      have hsplit := sum_split_path (bndOf R mult) hndK hpmem (fun k => bndOf_nonneg hm)
      rw [hbp] at hsplit
      linarith

theorem keys_resolveCriteria_sublist (current : Doc) (mc : List (Str × CriteriaValue)) :
    List.Sublist ((resolveCriteria current mc).map Prod.fst) (mc.map Prod.fst) := by
  induction mc with
  | nil => simp [resolveCriteria]
  | cons e mc ih =>
    have hstep : resolveCriteria current (e :: mc) =
        (match e.2 with
          | CriteriaValue.ignore => resolveCriteria current mc
          | CriteriaValue.useCurrent => (e.1, current.get e.1) :: resolveCriteria current mc
          | CriteriaValue.explicit v => (e.1, some v) :: resolveCriteria current mc) := by
      rw [resolveCriteria, List.filterMap_cons]
      cases e.2 <;> rfl
    rw [hstep, List.map_cons]
    cases he : e.2 with
    | ignore => exact List.Sublist.cons _ ih
    | useCurrent => rw [List.map_cons]; exact List.Sublist.cons₂ _ ih
    | explicit v => rw [List.map_cons]; exact List.Sublist.cons₂ _ ih

/-- C1 (amended): with a nonnegative scoreMultiplier and distinct criterion
field names, every returned confidence is nonnegative, and whenever the
effective strictPath is false every returned confidence is at most 100;
whenever maxPossibleScore = 0 every returned confidence is exactly 0 (the
division-by-zero guard) — confidence is a total rational value, never
NaN or Infinity.  With strictPath = true, confidence can exceed 100
(counterexample: c1_counterexample), which is what the original claim
missed. -/
theorem c1_amended (pages : List Doc) (current : Doc) (cfg : Config)
    (hm : 0 ≤ cfg.scoreMultiplier)
    (hnd : ((effectiveCriteria cfg.matchCriteria).map Prod.fst).Nodup) :
    (∀ r ∈ getRelatedConcepts pages current cfg, 0 ≤ r.confidence) ∧
    (effectiveStrictPath cfg = false →
      ∀ r ∈ getRelatedConcepts pages current cfg, r.confidence ≤ 100) ∧
    (maxPossibleScore (resolveCriteria current (effectiveCriteria cfg.matchCriteria))
        (effectiveStrictPath cfg) cfg.scoreMultiplier = 0 →
      ∀ r ∈ getRelatedConcepts pages current cfg, r.confidence = 0) := by
  have hndR : ((resolveCriteria current
      (effectiveCriteria cfg.matchCriteria)).map Prod.fst).Nodup :=
    List.Nodup.sublist (keys_resolveCriteria_sublist _ _) hnd
  refine ⟨?_, ?_, ?_⟩
  · intro r hr
    rcases (mem_getRelatedConcepts hr).1 with ⟨x, hx, hrx⟩
    have hok := scoreOk_relatedAcc hm x hx
    have hbounds := totalScore_le_max hndR hm hok
    rw [hrx]
    show 0 ≤ (if maxPossibleScore (resolveCriteria current
        (effectiveCriteria cfg.matchCriteria)) (effectiveStrictPath cfg)
        cfg.scoreMultiplier > 0 then
      totalScoreOf x.2.scores / maxPossibleScore (resolveCriteria current
        (effectiveCriteria cfg.matchCriteria)) (effectiveStrictPath cfg)
        cfg.scoreMultiplier * 100 else 0)
    by_cases hpos : maxPossibleScore (resolveCriteria current
        (effectiveCriteria cfg.matchCriteria)) (effectiveStrictPath cfg)
        cfg.scoreMultiplier > 0
    · rw [if_pos hpos]
      exact mul_nonneg (div_nonneg hbounds.1 (le_of_lt hpos)) (by norm_num)
    · rw [if_neg hpos]
  · intro hstrict r hr
    rcases (mem_getRelatedConcepts hr).1 with ⟨x, hx, hrx⟩
    have hok := scoreOk_relatedAcc hm x hx
    have hbounds := totalScore_le_max hndR hm hok
    have hmax : maxPossibleScore (resolveCriteria current
        (effectiveCriteria cfg.matchCriteria)) (effectiveStrictPath cfg)
        cfg.scoreMultiplier =
        2 + (((resolveCriteria current (effectiveCriteria cfg.matchCriteria)).filter
          (fun e => truthy e.2)).map
            (fun e => ((valueList e.2).length : ℚ) * cfg.scoreMultiplier)).sum := by
      rw [maxPossibleScore_eq, hstrict]
      norm_num
    have hsum0 : 0 ≤ (((resolveCriteria current
        (effectiveCriteria cfg.matchCriteria)).filter (fun e => truthy e.2)).map
          (fun e => ((valueList e.2).length : ℚ) * cfg.scoreMultiplier)).sum := by
      refine List.sum_nonneg ?_
      intro a ha
      rcases List.mem_map.mp ha with ⟨e, _, he⟩
      rw [← he]
      positivity
    have hmaxpos : 0 < maxPossibleScore (resolveCriteria current
        (effectiveCriteria cfg.matchCriteria)) (effectiveStrictPath cfg)
        cfg.scoreMultiplier := by
      rw [hmax]
      linarith
    have htle : totalScoreOf x.2.scores ≤ maxPossibleScore (resolveCriteria current
        (effectiveCriteria cfg.matchCriteria)) (effectiveStrictPath cfg)
        cfg.scoreMultiplier := by
      rw [hmax]
      exact hbounds.2
    have hdiv : totalScoreOf x.2.scores / maxPossibleScore (resolveCriteria current
        (effectiveCriteria cfg.matchCriteria)) (effectiveStrictPath cfg)
        cfg.scoreMultiplier ≤ 1 := (div_le_one hmaxpos).mpr htle
    rw [hrx]
    show (if maxPossibleScore (resolveCriteria current
        (effectiveCriteria cfg.matchCriteria)) (effectiveStrictPath cfg)
        cfg.scoreMultiplier > 0 then
      totalScoreOf x.2.scores / maxPossibleScore (resolveCriteria current
        (effectiveCriteria cfg.matchCriteria)) (effectiveStrictPath cfg)
        cfg.scoreMultiplier * 100 else 0) ≤ 100
    rw [if_pos hmaxpos]
    nlinarith [hdiv]
  · intro hmax0 r hr
    rcases (mem_getRelatedConcepts hr).1 with ⟨x, hx, hrx⟩
    rw [hrx]
    show (if maxPossibleScore (resolveCriteria current
        (effectiveCriteria cfg.matchCriteria)) (effectiveStrictPath cfg)
        cfg.scoreMultiplier > 0 then
      totalScoreOf x.2.scores / maxPossibleScore (resolveCriteria current
        (effectiveCriteria cfg.matchCriteria)) (effectiveStrictPath cfg)
        cfg.scoreMultiplier * 100 else 0) = 0
    rw [hmax0]
    norm_num

/-- C1 witness: the amended theorem applied to a concrete non-strict run. -/
theorem c1_witness :
    (0 : ℚ) ≤ (⟨curC, 300/7, false⟩ : RelatedResult).confidence ∧
      (⟨curC, 300/7, false⟩ : RelatedResult).confidence ≤ 100 :=
  ⟨(c1_amended [curC] curC cfgC (by norm_num [cfgC]) (by decide)).1 ⟨curC, 300/7, false⟩
      (by with_unfolding_all decide),
   (c1_amended [curC] curC cfgC (by norm_num [cfgC]) (by decide)).2.1 (by decide)
      ⟨curC, 300/7, false⟩ (by with_unfolding_all decide)⟩

/-- C1 counterexample: with strictPath = true the code removes the 2-point
path headroom from the divisor while still awarding path points, so a
returned confidence exceeds 100 (here 700/3 ≈ 233). -/
theorem c1_counterexample :
    ∃ r ∈ getRelatedConcepts [curA, candA] curA cfgA, 100 < r.confidence := by
  with_unfolding_all decide

/- ------------------------------------------------------------------
   C7: a UseCurrent criterion on an absent field acts like Ignore.
   ------------------------------------------------------------------ -/

theorem find?_key_eq_none {l : List (Str × Option FieldValue)} {k : Str}
    (h : k ∉ l.map Prod.fst) : l.find? (fun e => e.1 == k) = none := by
  refine List.find?_eq_none.mpr ?_
  intro e he hbeq
  exact h (List.mem_map.mpr ⟨e, he, by simpa using hbeq⟩)

theorem searchFilter_splice {A B : List (Str × Option FieldValue)} {f g : Str}
    (hB : f ∉ B.map Prod.fst) :
    searchFilter (A ++ (f, none) :: B) g = searchFilter (A ++ B) g := by
  induction A with
  | nil =>
    rw [List.nil_append, List.nil_append, searchFilter, searchFilter]
    by_cases hfg : (f == g) = true
    · rw [List.find?_cons_of_pos _ (by simpa using hfg)]
      have hfg' : f = g := by simpa using hfg
      rw [find?_key_eq_none (by rw [← hfg']; exact hB)]
    · rw [List.find?_cons_of_neg _ (by simpa using hfg)]
  | cons a A ih =>
    rw [List.cons_append, List.cons_append, searchFilter, searchFilter]
    simp only [List.find?_cons]
    cases hag : (a.1 == g) with
    | true => rfl
    | false =>
      have hih := ih
      rw [searchFilter, searchFilter] at hih
      exact hih

theorem candidateMatches_splice {A B : List (Str × Option FieldValue)} {f : Str}
    (hB : f ∉ B.map Prod.fst) (f' : Str) (tvs : List Str) (p : Doc) :
    candidateMatches (A ++ (f, none) :: B) f' tvs p
      = candidateMatches (A ++ B) f' tvs p := by
  rw [candidateMatches, candidateMatches, searchFilter_splice hB, searchFilter_splice hB]

theorem processField_splice {pages : List Doc} {A B : List (Str × Option FieldValue)}
    {f : Str} {mult : ℚ} (hB : f ∉ B.map Prod.fst) :
    ∀ (acc : RelAcc) (e : Str × Option FieldValue),
      processField pages (A ++ (f, none) :: B) mult acc e
        = processField pages (A ++ B) mult acc e := by
  intro acc e
  rw [processField, processField]
  by_cases ht : truthy e.2 = true
  · rw [if_pos ht, if_pos ht]
    have hfe : pages.filter (candidateMatches (A ++ (f, none) :: B) e.1 (valueList e.2))
        = pages.filter (candidateMatches (A ++ B) e.1 (valueList e.2)) := by
      refine List.filter_congr ?_
      intro p _
      exact candidateMatches_splice hB e.1 (valueList e.2) p
    rw [hfe]
  · rw [if_neg ht, if_neg ht]

theorem foldl_ext {β γ : Type} {step₁ step₂ : γ → β → γ}
    (h : ∀ a b, step₁ a b = step₂ a b) :
    ∀ (l : List β) (acc : γ), List.foldl step₁ acc l = List.foldl step₂ acc l := by
  intro l
  induction l with
  | nil => intro acc; rfl
  | cons b l ih => intro acc; rw [List.foldl_cons, List.foldl_cons, h, ih]

theorem maxPossibleScore_splice {A B : List (Str × Option FieldValue)} {f : Str}
    {strict : Bool} {mult : ℚ} :
    maxPossibleScore (A ++ (f, none) :: B) strict mult
      = maxPossibleScore (A ++ B) strict mult := by
  rw [maxPossibleScore_eq, maxPossibleScore_eq]
  congr 1
  rw [List.filter_append, List.filter_append, List.filter_cons]
  simp [truthy]

/-- C7: a criterion field configured UseCurrent whose field the reference
document lacks contributes nothing at all — no candidate scores, no search
filter, and no maxPossibleScore term — so the returned list is identical to
the one obtained with that criterion ignored. -/
theorem c7_absent_useCurrent (pages : List Doc) (current : Doc) (cfg cfg' : Config)
    (pre post : List (Str × CriteriaValue)) (f : Str)
    (hmc : cfg.matchCriteria = pre ++ (f, CriteriaValue.useCurrent) :: post)
    (hmc' : cfg'.matchCriteria = pre ++ (f, CriteriaValue.ignore) :: post)
    (hip : cfg'.includePath = cfg.includePath) (hsp : cfg'.strictPath = cfg.strictPath)
    (hms : cfg'.minScore = cfg.minScore) (hmr : cfg'.maxResults = cfg.maxResults)
    (hsm : cfg'.scoreMultiplier = cfg.scoreMultiplier)
    (habs : current.get f = none)
    (hpost : f ∉ post.map Prod.fst) :
    getRelatedConcepts pages current cfg = getRelatedConcepts pages current cfg' := by
  obtain ⟨mc1, ip1, sp1, ms1, mr1, sm1⟩ := cfg
  obtain ⟨mc2, ip2, sp2, ms2, mr2, sm2⟩ := cfg'
  simp only [] at hmc hmc' hip hsp hms hmr hsm
  subst hmc hmc' hip hsp hms hmr hsm
  have hEff1 : effectiveCriteria (pre ++ (f, CriteriaValue.useCurrent) :: post)
      = pre ++ (f, CriteriaValue.useCurrent) :: post := by
    rw [effectiveCriteria]
    simp
  have hEff2 : effectiveCriteria (pre ++ (f, CriteriaValue.ignore) :: post)
      = pre ++ (f, CriteriaValue.ignore) :: post := by
    rw [effectiveCriteria]
    simp
  have hres1 : resolveCriteria current (pre ++ (f, CriteriaValue.useCurrent) :: post)
      = resolveCriteria current pre ++ (f, none) :: resolveCriteria current post := by
    simp [resolveCriteria, List.filterMap_append, List.filterMap_cons, habs]
  have hres2 : resolveCriteria current (pre ++ (f, CriteriaValue.ignore) :: post)
      = resolveCriteria current pre ++ resolveCriteria current post := by
    simp [resolveCriteria, List.filterMap_append, List.filterMap_cons]
  have hBkeys : f ∉ (resolveCriteria current post).map Prod.fst := by
    intro h
    exact hpost (mem_keys_resolveCriteria h)
  have hfold : ∀ base : RelAcc,
      (resolveCriteria current pre ++ (f, none) :: resolveCriteria current post).foldl
        (processField pages
          (resolveCriteria current pre ++ (f, none) :: resolveCriteria current post) sm2)
        base
      = (resolveCriteria current pre ++ resolveCriteria current post).foldl
          (processField pages (resolveCriteria current pre ++ resolveCriteria current post)
            sm2) base := by
    intro base
    rw [foldl_ext (fun a b => processField_splice hBkeys a b)]
    rw [List.foldl_append, List.foldl_cons]
    have hid : processField pages
        (resolveCriteria current pre ++ resolveCriteria current post) sm2
        ((resolveCriteria current pre).foldl (processField pages
          (resolveCriteria current pre ++ resolveCriteria current post) sm2) base)
        (f, none)
        = (resolveCriteria current pre).foldl (processField pages
            (resolveCriteria current pre ++ resolveCriteria current post) sm2) base := rfl
    rw [hid, ← List.foldl_append]
  rw [getRelatedConcepts, getRelatedConcepts, relatedAcc, relatedAcc]
  simp only [] at *
  rw [hEff1, hEff2, hres1, hres2, hfold, maxPossibleScore_splice]
  rfl

/-- C7 witness: two concrete configurations differing only in whether the
absent-on-the-reference subject field is UseCurrent or ignored produce the
same output. -/
theorem c7_witness :
    getRelatedConcepts [curC] curC cfgG =
      getRelatedConcepts [curC] curC
        ⟨[("type".toList, .explicit (.scalar "hub".toList)), ("subject".toList, .ignore)],
         .disabled, false, 0, 10, 3/2⟩ :=
  c7_absent_useCurrent [curC] curC cfgG
    ⟨[("type".toList, .explicit (.scalar "hub".toList)), ("subject".toList, .ignore)],
     .disabled, false, 0, 10, 3/2⟩
    [("type".toList, .explicit (.scalar "hub".toList))] [] "subject".toList
    rfl rfl rfl rfl rfl rfl rfl (by decide) (by simp)
